import Mathlib

/-!
# Verification of the socratic-tutor retrieval-and-dialogue core

Shallow embedding of the core of the `socratic-tutor` repository:

* `src/vector_store.py` — JSON file-backed store of chunk/embedding pairs
  (`VectorStore.save` / `VectorStore.load`), modelled as a finite map from
  document name to the stored record.
* `src/retriever.py` — `retrieve_relevant_chunks`: loads the record, scores
  every chunk against a query embedding, sorts by similarity descending with
  Python's stable sort, truncates to `top_k`.
* `src/qa_system.py` — `answer_query`: retrieval plus prompt assembly.
* `src/pdf_processor.py` — `chunk_text_by_chars` / `chunk_text_by_tokens`:
  greedy line-accumulating chunkers with overlap seeding.
* `src/student_profile.py` — `StudentProfile.update_concept_progress` and
  `get_topic_progress` over the profile JSON data.
* `src/socratic_engine.py` — `teach_topic`: the bounded-turn teaching session.

External effects (OpenAI calls, the tokenizer, wall-clock timestamps, stdin)
are parameters of the embedded functions; file I/O is explicit state passing.
Python floats are modelled as `ℚ` (the similarity/ordering logic under
verification does not depend on rounding), Python strings as Lean `String`
(both are sequences of Unicode code points; `len` is code-point length).
-/

namespace SocraticTutor

/-! ## Python value primitives

`teach_topic` compares a parsed-JSON value against a string literal and
branches on Python truthiness, so we embed the small fragment of Python's
dynamic values that the engine manipulates. -/

/-- A parsed-JSON value as the engine sees it: a string, an object, or
`null`.  (The evaluator's schema produces no other shapes in the fields the
engine inspects.) -/
inductive PyVal where
  | pstr : String → PyVal
  | pdict : List (String × PyVal) → PyVal
  | pnull : PyVal

/-- Python `x == s` for a string literal `s`: only a `str` can compare equal
to a `str`; a `dict` or `None` compares unequal regardless of content. -/
def pyEqStr : PyVal → String → Bool
  | .pstr s, t => s == t
  | _, _ => false

/-- Python truthiness of the values above: `None` is falsy, a string is
truthy iff non-empty, a dict is truthy iff non-empty. -/
def pyTruthy : PyVal → Bool
  | .pstr s => !(s == "")
  | .pdict fs => !fs.isEmpty
  | .pnull => false

/-- Python `s.strip()` / the stripping in `line.strip()`: remove leading and
trailing whitespace.  Python's `str.strip` uses `str.isspace`, which on the
ASCII range is exactly these six characters. -/
def pyIsSpace (c : Char) : Bool :=
  c == ' ' || c == '\t' || c == '\n' || c == '\x0b' || c == '\x0c' || c == '\r'

/-- `str.strip()` on the underlying character list. -/
def pyStripList (l : List Char) : List Char :=
  ((l.dropWhile pyIsSpace).reverse.dropWhile pyIsSpace).reverse

/-- `str.strip()`. -/
def pyStrip (s : String) : String :=
  ⟨pyStripList s.data⟩

/-- Python's `len` on a string: number of code points. -/
def pyLen (s : String) : Nat := s.data.length

/-- The trailing `n` elements of a list (`l[len-n:]`); for `n = 0` this is
`[]`, i.e. the "trailing `0` units". -/
def takeRightList (l : List α) (n : Nat) : List α :=
  l.drop (l.length - n)

/-- Python slicing `l[-n:]`.  Caution: for `n = 0` Python reads `l[-0:]` as
`l[0:]`, the whole list, not the empty suffix. -/
def pySliceLast (l : List α) (n : Nat) : List α :=
  if n = 0 then l else takeRightList l n

/-- Python `s[-n:]` on strings. -/
def pySliceLastStr (s : String) (n : Nat) : String :=
  ⟨pySliceLast s.data n⟩

/-! ## `src/vector_store.py` — `VectorStore` -/

/-- One element of the `"chunks"` array written by `VectorStore.save`:
`{"id": i, "text": chunk, "embedding": embedding}`. -/
structure ChunkEntry where
  id : Nat
  text : String
  embedding : List ℚ
  deriving DecidableEq

/-- The JSON object `VectorStore.save` writes for one document. -/
structure StoredRecord where
  pdf_name : String
  created_at : String
  num_chunks : Nat
  chunks : List ChunkEntry
  deriving DecidableEq

/-- The storage directory: one JSON file per document name. -/
def StoreState := String → Option StoredRecord

/-- The store with no saved documents. -/
def StoreState.empty : StoreState := fun _ => none

namespace VectorStore

/-- The `data` dict built by `VectorStore.save` (lines 46–54):
`zip(chunks, embeddings)` silently stops at the shorter list, while
`num_chunks` records `len(chunks)`.  `now` stands for
`datetime.now().isoformat()`. -/
def mkRecord (pdf_name : String) (chunks : List String)
    (embeddings : List (List ℚ)) (now : String) : StoredRecord where
  pdf_name := pdf_name
  created_at := now
  num_chunks := chunks.length
  chunks := (chunks.zip embeddings).enum.map fun p => ⟨p.1, p.2.1, p.2.2⟩

/-- `VectorStore.save(pdf_name, chunks, embeddings)`: writes
`{pdf_name}.json`, replacing any previous record for that name. -/
def save (st : StoreState) (pdf_name : String) (chunks : List String)
    (embeddings : List (List ℚ)) (now : String) : StoreState :=
  fun n => if n = pdf_name then some (mkRecord pdf_name chunks embeddings now) else st n

/-- `VectorStore.load(pdf_name)`: returns `(chunks, embeddings)` read back
from the JSON file, or `(None, None)` — modelled as `none` — if the file
does not exist (lines 76–89). -/
def load (st : StoreState) (pdf_name : String) :
    Option (List String × List (List ℚ)) :=
  match st pdf_name with
  | none => none
  | some data => some (data.chunks.map (·.text), data.chunks.map (·.embedding))

end VectorStore

/-! ## `src/retriever.py` — `retrieve_relevant_chunks`

`cosine_similarity` computes over IEEE floats via numpy; the ranking logic
only consumes the resulting scores, so the similarity function is a
parameter `simf` and scores live in `ℚ`.  CPython's `list.sort(key=...,
reverse=True)` is a stable descending sort; any stable sort computes the
same output function, so it is embedded as `List.mergeSort` (stable) with
the comparison `b.2 ≤ a.2` on the `(index, score)` pairs. -/

/-- Lines 100–109 of `retrieve_relevant_chunks`: enumerate the chunk
embeddings, score each against the query embedding, stable-sort by score
descending, truncate to `top_k`. -/
def rankedSimilarities (embeddings : List (List ℚ)) (query_embedding : List ℚ)
    (simf : List ℚ → List ℚ → ℚ) (top_k : Nat) : List (Nat × ℚ) :=
  let similarities := (embeddings.map fun e => simf query_embedding e).enum
  let sorted := similarities.mergeSort fun a b => decide (b.2 ≤ a.2)
  sorted.take top_k

/-- Lines 112–114: replace each ranked index by its chunk text.  The source
indexes `chunks[idx]` with `idx` drawn from `enumerate(embeddings)`; the
default of `getD` is never reached when `len(chunks) = len(embeddings)`. -/
def collectResults (chunks : List String) (ranked : List (Nat × ℚ)) :
    List (String × ℚ) :=
  ranked.map fun p => (chunks.getD p.1 "", p.2)

/-- `retrieve_relevant_chunks(query, pdf_name, top_k)` (lines 83–121):
load the record, fail with `ValueError` if absent, otherwise embed the
query (`embed` stands for `create_embedding`) and rank.  Errors are the
raised exception's message. -/
def retrieve_relevant_chunks (st : StoreState) (query : String)
    (pdf_name : String) (embed : String → List ℚ)
    (simf : List ℚ → List ℚ → ℚ) (top_k : Nat) :
    Except String (List (String × ℚ)) :=
  match VectorStore.load st pdf_name with
  | none => .error ("No data found for " ++ pdf_name ++ ". Run process_pdf.py first.")
  | some (chunks, embeddings) =>
      let query_embedding := embed query
      .ok (collectResults chunks (rankedSimilarities embeddings query_embedding simf top_k))

/-! ## `src/qa_system.py` — `answer_query` -/

/-- `create_qa_prompt` (lines 83–86): the context block is the chunk texts
joined with the `"\n\n---\n\n"` separator. -/
def create_qa_prompt_context (context_chunks : List (String × ℚ)) : String :=
  String.intercalate "\n\n---\n\n" (context_chunks.map (·.1))

/-- The retrieval step of `answer_query` (line 151): the source calls
`retrieve_relevant_chunks(query, pdf_name, top_k=3)` with the literal `3`,
not the function's `top_k` parameter, which is used only in the logging
metadata. -/
def answer_query_context_chunks (st : StoreState) (query : String)
    (pdf_name : String) (embed : String → List ℚ)
    (simf : List ℚ → List ℚ → ℚ) (top_k : Nat) :
    Except String (List (String × ℚ)) :=
  retrieve_relevant_chunks st query pdf_name embed simf 3

/-! ## `src/pdf_processor.py` — chunking

The chunkers are pure string functions.  Python `str.replace` and
`str.split` are re-implemented structurally so that everything reduces in
the kernel. -/

/-- Scanner for `str.replace`: at skip-count `0`, if the pattern is a prefix
of the remaining input, emit the replacement and skip the rest of the match;
otherwise emit one character.  Python semantics for a non-empty pattern
(both patterns used by the source are non-empty literals). -/
def replaceGo (pat rep : List Char) : List Char → Nat → List Char
  | [], _ => []
  | _ :: cs, k + 1 => replaceGo pat rep cs k
  | c :: cs, 0 =>
    if pat <+: (c :: cs) then rep ++ replaceGo pat rep cs (pat.length - 1)
    else c :: replaceGo pat rep cs 0

/-- Python `s.replace(pat, rep)` for non-empty `pat`. -/
def pyReplace (s pat rep : String) : String :=
  ⟨replaceGo pat.data rep.data s.data 0⟩

/-- Python `s.split("\n")` on the character list. -/
def splitNl : List Char → List (List Char)
  | [] => [[]]
  | c :: cs =>
    match splitNl cs with
    | [] => [[c]]
    | h :: t => if c = '\n' then [] :: h :: t else (c :: h) :: t

/-- Lines 86–89 of `chunk_text_by_chars`:
`lines = text.split("\n")`, then `[line.strip() for line in lines if line.strip()]`. -/
def strippedLines (text : String) : List String :=
  (((splitNl text.data).map pyStripList).filter (· ≠ [])).map fun l => ⟨l⟩

/-- Line 83: the page-marker normalization of `chunk_text_by_chars`. -/
def charPreprocess (text : String) : String :=
  pyReplace (pyReplace text "--- Page" "PAGE_MARKER") "---" ""

/-- The accumulation loop of `chunk_text_by_chars` (lines 91–106): build the
current chunk line by line; once adding a line would reach `chunk_size`,
flush the buffer and seed the next one with `current_chunk[-overlap:]`;
after the loop the final non-empty buffer is appended **stripped**. -/
def chunkCharsLoop (chunk_size overlap : Nat) :
    List String → String → List String → List String
  | [], current, chunks =>
      if current == "" then chunks else chunks ++ [pyStrip current]
  | line :: rest, current, chunks =>
      if pyLen current + pyLen line < chunk_size then
        chunkCharsLoop chunk_size overlap rest (current ++ "\n" ++ line) chunks
      else
        chunkCharsLoop chunk_size overlap rest
          (pySliceLastStr current overlap ++ "\n" ++ line) (chunks ++ [current])

/-- `chunk_text_by_chars(text, chunk_size, overlap)` with
`return_metadata=False`.  When no chunk is produced (text with no non-empty
line) the source raises `StatisticsError` computing `mean` over an empty
list; that failure is `none`. -/
def chunk_text_by_chars (text : String) (chunk_size overlap : Nat) :
    Option (List String) :=
  let chunks := chunkCharsLoop chunk_size overlap (strippedLines (charPreprocess text)) "" []
  if chunks.isEmpty then none else some chunks

/-- Lines 158–164 of `chunk_text_by_tokens`: its own marker normalization
(`PAGEMARKER`, no underscore) and line filtering — lines are filtered by
`line.strip()` truthiness but **not** themselves stripped. -/
def tokenLines (text : String) : List String :=
  (((splitNl (pyReplace (pyReplace text "--- Page" "PAGEMARKER") "---" "").data)).filter
    (fun l => pyStripList l ≠ [])).map fun l => ⟨l⟩

/-- The accumulation loop of `chunk_text_by_tokens` (lines 169–189) at the
token-id level: like the character loop but measured in tokens, and the
final buffer is appended unconditionally and unstripped. -/
def chunkTokensLoop (chunk_size overlap : Nat) (enc : String → List Nat) :
    List String → List Nat → List (List Nat) → List (List Nat)
  | [], current, chunks => chunks ++ [current]
  | line :: rest, current, chunks =>
      let line_tokens := enc line
      if current.length + line_tokens.length < chunk_size then
        chunkTokensLoop chunk_size overlap enc rest (current ++ line_tokens) chunks
      else
        chunkTokensLoop chunk_size overlap enc rest
          (pySliceLast current overlap ++ line_tokens) (chunks ++ [current])

/-- The token-id sequences of the chunks produced by `chunk_text_by_tokens`
(each chunk in the source is `encoding.decode` of one of these). -/
def chunk_text_by_tokens_ids (text : String) (chunk_size overlap : Nat)
    (enc : String → List Nat) : List (List Nat) :=
  chunkTokensLoop chunk_size overlap enc (tokenLines text) [] []

/-- `chunk_text_by_tokens(text, chunk_size, overlap)` with
`return_metadata=False`; `dec` stands for `encoding.decode`. -/
def chunk_text_by_tokens (text : String) (chunk_size overlap : Nat)
    (enc : String → List Nat) (dec : List Nat → String) : List String :=
  (chunk_text_by_tokens_ids text chunk_size overlap enc).map dec

/-! ## `src/student_profile.py` — `StudentProfile`

The profile JSON is explicit data; `datetime.now().isoformat()` is a
parameter `now`.  `self.data["topics"]` is a Python dict, modelled as an
insertion-ordered association list (keys are unique by construction:
`setdefault` appends a key only when absent). -/

/-- The per-topic progress record created by `setdefault` in
`update_concept_progress`. -/
structure TopicData where
  concepts_learned : List String
  concepts_weak : List String
  last_studied : Option String
  deriving DecidableEq

/-- The profile's `data` dict. -/
structure ProfileData where
  student_id : String
  created_at : String
  topics : List (String × TopicData)
  deriving DecidableEq

/-- `create_new` (lines 53–60): a fresh profile with no topics. -/
def ProfileData.createNew (student_id created_at : String) : ProfileData :=
  ⟨student_id, created_at, []⟩

/-- `get_topic_progress(topic)` (line 100): `self.data["topics"].get(topic, {})`;
the empty-dict default is `none`. -/
def get_topic_progress (p : ProfileData) (topic : String) : Option TopicData :=
  p.topics.lookup topic

/-- The body of `update_concept_progress` acting on one topic's record
(lines 128–141): remove the concept from both lists if present
(`list.remove` drops the first occurrence), then append it to the list
selected by `status`, and stamp `last_studied`. -/
def updateTopicData (d : TopicData) (concept status now : String) : TopicData :=
  let learned :=
    if concept ∈ d.concepts_learned then d.concepts_learned.erase concept
    else d.concepts_learned
  let weak :=
    if concept ∈ d.concepts_weak then d.concepts_weak.erase concept
    else d.concepts_weak
  if status = "learned" then ⟨learned ++ [concept], weak, some now⟩
  else if status = "weak" then ⟨learned, weak ++ [concept], some now⟩
  else ⟨learned, weak, some now⟩

/-- Overwrite the value stored under an existing key of the topics dict. -/
def setTopic (ts : List (String × TopicData)) (topic : String) (d : TopicData) :
    List (String × TopicData) :=
  ts.map fun p => if p.1 = topic then (topic, d) else p

/-- `update_concept_progress(topic, concept, status)` (lines 106–143):
`setdefault` the topic record (appending a fresh one if the topic is new,
which preserves dict insertion order), then update it in place.  The
trailing `self.save()` is the identity on the in-memory data. -/
def update_concept_progress (p : ProfileData) (topic concept status now : String) :
    ProfileData :=
  match p.topics.lookup topic with
  | some d => { p with topics := setTopic p.topics topic (updateTopicData d concept status now) }
  | none =>
      { p with
        topics := p.topics ++ [(topic, updateTopicData ⟨[], [], none⟩ concept status now)] }

/-- One call to `update_concept_progress`, for reasoning about call
sequences. -/
structure UpdateCall where
  topic : String
  concept : String
  status : String
  now : String
  deriving DecidableEq

/-- Apply a sequence of `update_concept_progress` calls. -/
def applyCalls (p : ProfileData) (calls : List UpdateCall) : ProfileData :=
  calls.foldl (fun q u => update_concept_progress q u.topic u.concept u.status u.now) p

/-- The status of the last call in the sequence that touched `(topic, concept)`. -/
def lastStatus (calls : List UpdateCall) (topic concept : String) : Option String :=
  ((calls.filter fun u => u.topic = topic ∧ u.concept = concept).getLast?).map (·.status)

/-! ## `src/socratic_engine.py` — `teach_topic`

`generate_teaching_question` and `evaluate_answer` are OpenAI round trips;
the session loop consumes their parsed-JSON outputs.  A run of the loop is
therefore parameterized by the oracle outputs: the opening question `q0`,
the questions `regen n` produced by successive fallback calls to
`generate_teaching_question`, and one `TeachEvent` per pass through the
loop body (the student's raw `input()` text plus the evaluator's reply for
it). -/

/-- The parsed JSON reply of `evaluate_answer` as `teach_topic` consumes it:
the fields `evaluation`, `feedback` and `next_question` of the result dict.
Per the prompt schema `evaluation` is an object `{"correctness": ...}` and
`next_question` a string or `null`, but the engine receives arbitrary
parsed JSON, so the fields are `PyVal`s. -/
structure EvalResult where
  evaluation : PyVal
  feedback : PyVal
  next_question : PyVal

/-- One pass through the `while` body: the text entered at `input()`
together with the evaluator reply that `evaluate_answer` would return for
it (unused when the stripped answer is empty, since the source `continue`s
before evaluating). -/
structure TeachEvent where
  answer : String
  evalResult : EvalResult

/-- One transcript entry (lines 403–405 and 439–440). -/
structure TurnRecord where
  turn : Nat
  question : PyVal
  answer : String
  evaluation : PyVal
  feedback : PyVal

/-- The `session` dict of `teach_topic`. -/
structure Session where
  topic : String
  transcript : List TurnRecord
  final_assessment : Option String

/-- The `while turn < max_turns` loop of `teach_topic` (lines 384–467).
`genCalls` counts the fallback calls to `generate_teaching_question` so far
(indexing into `regen`).  When the events are exhausted while the loop
would still run, the interactive program is blocked on `input()`; the model
returns the session as accumulated.

Line 445 is embedded faithfully: the mastery test compares the *whole*
`evaluation_data["evaluation"]` value — an object, per the schema — with the
string `"correct"` (`pyEqStr`), not the `correctness` field, and line 467
writes the literal `"in progress"` (with a space). -/
def teachLoop (max_turns : Nat) (regen : Nat → PyVal) :
    Nat → Nat → PyVal → Session → List TeachEvent → Session
  | _, _, _, session, [] => session
  | genCalls, turn, current_question, session, e :: rest =>
    if turn < max_turns then
      let turn1 := turn + 1
      let student_answer := pyStrip e.answer
      if student_answer == "" then
        teachLoop max_turns regen genCalls turn current_question session rest
      else
        let session1 : Session :=
          { session with
            transcript := session.transcript ++
              [⟨turn1, current_question, student_answer,
                e.evalResult.evaluation, e.evalResult.feedback⟩] }
        if pyEqStr e.evalResult.evaluation "correct" &&
            !pyTruthy e.evalResult.next_question then
          { session1 with final_assessment := some "mastered" }
        else
          let next :=
            if pyTruthy e.evalResult.next_question then
              (e.evalResult.next_question, genCalls)
            else (regen genCalls, genCalls + 1)
          let session2 :=
            if max_turns ≤ turn1 then
              { session1 with final_assessment := some "in progress" }
            else session1
          teachLoop max_turns regen next.2 turn1 next.1 session2 rest
    else session

/-- `teach_topic(topic, pdf_name, max_turns)` (lines 335–472), from the
point where the opening question `q0` has been generated. -/
def teach_topic (topic : String) (max_turns : Nat) (q0 : PyVal)
    (regen : Nat → PyVal) (events : List TeachEvent) : Session :=
  teachLoop max_turns regen 0 0 q0 ⟨topic, [], none⟩ events

/-! ## Helper lemmas -/

/-- The first components of a zip are the first list truncated to the
common length. -/
theorem map_fst_zip_min :
    ∀ (a : List α) (b : List β),
      (a.zip b).map Prod.fst = a.take (min a.length b.length)
  | [], _ => by simp
  | _ :: _, [] => by simp
  | x :: a, y :: b => by
    simp only [List.zip_cons_cons, List.map_cons, List.length_cons,
      Nat.succ_min_succ, List.take_succ_cons, List.cons.injEq, true_and]
    exact map_fst_zip_min a b

/-- The second components of a zip are the second list truncated to the
common length. -/
theorem map_snd_zip_min :
    ∀ (a : List α) (b : List β),
      (a.zip b).map Prod.snd = b.take (min a.length b.length)
  | [], _ => by simp
  | _ :: _, [] => by simp
  | x :: a, y :: b => by
    simp only [List.zip_cons_cons, List.map_cons, List.length_cons,
      Nat.succ_min_succ, List.take_succ_cons, List.cons.injEq, true_and]
    exact map_snd_zip_min a b

/-- The texts stored by `mkRecord` are the chunk list truncated to the
common length with the embedding list. -/
theorem mkRecord_texts (pdf_name : String) (chunks : List String)
    (embeddings : List (List ℚ)) (now : String) :
    (VectorStore.mkRecord pdf_name chunks embeddings now).chunks.map (·.text)
      = chunks.take (min chunks.length embeddings.length) := by
  show ((chunks.zip embeddings).enum.map fun p =>
      (ChunkEntry.mk p.1 p.2.1 p.2.2 : ChunkEntry)).map (·.text) = _
  rw [List.map_map]
  calc (chunks.zip embeddings).enum.map
        ((fun x : ChunkEntry => x.text) ∘ fun p => ChunkEntry.mk p.1 p.2.1 p.2.2)
      = ((chunks.zip embeddings).enum.map Prod.snd).map Prod.fst := by
        rw [List.map_map]; rfl
    _ = (chunks.zip embeddings).map Prod.fst := by rw [List.enum_map_snd]
    _ = chunks.take (min chunks.length embeddings.length) := map_fst_zip_min _ _

/-- The embeddings stored by `mkRecord` are the embedding list truncated to
the common length with the chunk list. -/
theorem mkRecord_embeddings (pdf_name : String) (chunks : List String)
    (embeddings : List (List ℚ)) (now : String) :
    (VectorStore.mkRecord pdf_name chunks embeddings now).chunks.map (·.embedding)
      = embeddings.take (min chunks.length embeddings.length) := by
  show ((chunks.zip embeddings).enum.map fun p =>
      (ChunkEntry.mk p.1 p.2.1 p.2.2 : ChunkEntry)).map (·.embedding) = _
  rw [List.map_map]
  calc (chunks.zip embeddings).enum.map
        ((fun x : ChunkEntry => x.embedding) ∘ fun p => ChunkEntry.mk p.1 p.2.1 p.2.2)
      = ((chunks.zip embeddings).enum.map Prod.snd).map Prod.snd := by
        rw [List.map_map]; rfl
    _ = (chunks.zip embeddings).map Prod.snd := by rw [List.enum_map_snd]
    _ = embeddings.take (min chunks.length embeddings.length) := map_snd_zip_min _ _

/-- `load` after `save` for the same name returns the truncated lists. -/
theorem load_save (st : StoreState) (pdf_name : String) (chunks : List String)
    (embeddings : List (List ℚ)) (now : String) :
    VectorStore.load (VectorStore.save st pdf_name chunks embeddings now) pdf_name
      = some (chunks.take (min chunks.length embeddings.length),
              embeddings.take (min chunks.length embeddings.length)) := by
  simp [VectorStore.load, VectorStore.save, mkRecord_texts, mkRecord_embeddings]

/-! ## C7 — save/load round-trip -/

/-- C7: for equal-length chunk and embedding lists, `VectorStore.save`
followed by `VectorStore.load` of the same document name reproduces exactly
the same chunks and embeddings, in the original order. -/
theorem vector_store_roundtrip (st : StoreState) (pdf_name : String)
    (chunks : List String) (embeddings : List (List ℚ)) (now : String)
    (h : chunks.length = embeddings.length) :
    VectorStore.load (VectorStore.save st pdf_name chunks embeddings now) pdf_name
      = some (chunks, embeddings) := by
  rw [load_save,
    show min chunks.length embeddings.length = chunks.length by omega,
    List.take_length, h, List.take_length]

/-- Witness for C7: a concrete two-chunk store round-trips. -/
theorem vector_store_roundtrip_witness :
    VectorStore.load
        (VectorStore.save StoreState.empty "chip_huyen_ch_1" ["alpha", "beta"]
          [[1, 2], [3, 4]] "2025-01-01T00:00:00")
        "chip_huyen_ch_1"
      = some (["alpha", "beta"], [[1, 2], [3, 4]]) :=
  vector_store_roundtrip StoreState.empty "chip_huyen_ch_1" ["alpha", "beta"]
    [[1, 2], [3, 4]] "2025-01-01T00:00:00" (by decide)

/-! ## C9 — mismatched lengths truncate silently -/

/-- C9: when `save` receives lists of different lengths, the stored record
keeps only the first `min` entries of each (the `zip` stops at the shorter
list), while `num_chunks` records the full `len(chunks)`; a subsequent
`load` returns the truncated lists. -/
theorem save_truncates_mismatched (st : StoreState) (pdf_name : String)
    (chunks : List String) (embeddings : List (List ℚ)) (now : String) :
    (VectorStore.mkRecord pdf_name chunks embeddings now).num_chunks = chunks.length
    ∧ (VectorStore.mkRecord pdf_name chunks embeddings now).chunks.length
        = min chunks.length embeddings.length
    ∧ VectorStore.load (VectorStore.save st pdf_name chunks embeddings now) pdf_name
        = some (chunks.take (min chunks.length embeddings.length),
                embeddings.take (min chunks.length embeddings.length)) :=
  ⟨rfl, by simp [VectorStore.mkRecord], load_save st pdf_name chunks embeddings now⟩

/-! ## C8 — retrieval of an un-ingested document fails -/

/-- C8: `retrieve_relevant_chunks` against a document name with no stored
record raises `ValueError` (surfaces an error) instead of returning an
empty list. -/
theorem retrieve_not_found (st : StoreState) (query pdf_name : String)
    (embed : String → List ℚ) (simf : List ℚ → List ℚ → ℚ) (top_k : Nat)
    (h : st pdf_name = none) :
    retrieve_relevant_chunks st query pdf_name embed simf top_k
      = .error ("No data found for " ++ pdf_name ++ ". Run process_pdf.py first.") := by
  simp [retrieve_relevant_chunks, VectorStore.load, h]

/-- Witness for C8: the empty store has no record for any name. -/
theorem retrieve_not_found_witness :
    retrieve_relevant_chunks StoreState.empty "What is self-supervision?"
        "chip_huyen_ch_1" (fun _ => [1]) (fun _ _ => 0) 3
      = .error "No data found for chip_huyen_ch_1. Run process_pdf.py first." :=
  retrieve_not_found StoreState.empty "What is self-supervision?" "chip_huyen_ch_1"
    (fun _ => [1]) (fun _ _ => 0) 3 rfl

/-! ## C3 — `answer_query` does not honor its `top_k` argument

`answer_query` documents `top_k` as "How many chunks to retrieve" and logs
it in its metadata, but line 151 calls
`retrieve_relevant_chunks(query, pdf_name, top_k=3)` with a hard-coded `3`. -/

unseal List.merge List.mergeSort in
/-- C3 at a failing input: five chunks are stored and the caller asks for
`top_k = 5`, yet the context assembled by `answer_query` holds 3 chunks. -/
theorem answer_query_hardcodes_top_k :
    (answer_query_context_chunks
        (VectorStore.save StoreState.empty "chip_huyen_ch_1"
          ["c0", "c1", "c2", "c3", "c4"] [[1], [1], [1], [1], [1]] "T")
        "q" "chip_huyen_ch_1" (fun _ => [1]) (fun _ _ => 0) 5).map List.length
      = .ok 3 := by
  rfl

/-! ## C10 — an oversized first line yields an empty first chunk -/

/-- The character-chunking loop only ever appends to the accumulated chunk
list. -/
theorem chunkCharsLoop_append (chunk_size overlap : Nat) :
    ∀ (lines : List String) (current : String) (chunks : List String),
      ∃ extra, chunkCharsLoop chunk_size overlap lines current chunks = chunks ++ extra
  | [], current, chunks => by
    by_cases h : current == ""
    · exact ⟨[], by simp [chunkCharsLoop, h]⟩
    · exact ⟨[pyStrip current], by simp [chunkCharsLoop, h]⟩
  | line :: rest, current, chunks => by
    by_cases h : pyLen current + pyLen line < chunk_size
    · obtain ⟨extra, hx⟩ :=
        chunkCharsLoop_append chunk_size overlap rest (current ++ "\n" ++ line) chunks
      exact ⟨extra, by simp [chunkCharsLoop, h, hx]⟩
    · obtain ⟨extra, hx⟩ :=
        chunkCharsLoop_append chunk_size overlap rest
          (pySliceLastStr current overlap ++ "\n" ++ line) (chunks ++ [current])
      exact ⟨[current] ++ extra, by simp [chunkCharsLoop, h, hx]⟩

/-- C10: when the first non-empty (stripped) line of the preprocessed text
is at least `chunk_size` characters long, the guard
`len(current_chunk) + len(line) < chunk_size` fails on the initially empty
buffer, so the empty buffer itself is flushed: the returned list starts
with the empty string. -/
theorem chunk_first_line_oversized (text : String) (chunk_size overlap : Nat)
    (line : String) (rest : List String)
    (hline : strippedLines (charPreprocess text) = line :: rest)
    (hlen : chunk_size ≤ pyLen line) :
    ∃ l, chunk_text_by_chars text chunk_size overlap = some l
      ∧ l.head? = some "" := by
  have hlen2 : chunk_size ≤ line.data.length := hlen
  have hcond : ¬ (pyLen "" + pyLen line < chunk_size) := by
    simp only [pyLen]
    have h0 : ("" : String).data.length = 0 := rfl
    omega
  obtain ⟨extra, hx⟩ :=
    chunkCharsLoop_append chunk_size overlap rest
      (pySliceLastStr "" overlap ++ "\n" ++ line) [""]
  refine ⟨"" :: extra, ?_, rfl⟩
  simp only [chunk_text_by_chars, hline, chunkCharsLoop, hcond, if_false,
    List.nil_append]
  rw [hx]
  rfl

/-- Witness for C10: a six-character single-line text with `chunk_size = 3`. -/
theorem chunk_first_line_oversized_witness :
    strippedLines (charPreprocess "AAAAAA") = ["AAAAAA"]
    ∧ 3 ≤ pyLen "AAAAAA"
    ∧ ∃ l, chunk_text_by_chars "AAAAAA" 3 1 = some l ∧ l.head? = some "" :=
  ⟨by decide, by decide,
    chunk_first_line_oversized "AAAAAA" 3 1 "AAAAAA" [] (by decide) (by decide)⟩

/-! ## C1 / C2 — the session's final assessment

Line 445 of `teach_topic` compares the evaluation *object* with the string
`"correct"`; under the evaluator's schema (`evaluation` is a JSON object),
that comparison is always false, so the `"mastered"` branch is dead code —
the source's own comment at lines 443–444 states the intended check. -/

/-- Once the turn counter has reached `max_turns`, the `while` loop exits
and the session is returned unchanged. -/
theorem teachLoop_exit (max_turns : Nat) (regen : Nat → PyVal) (genCalls turn : Nat)
    (q : PyVal) (session : Session) (events : List TeachEvent)
    (h : max_turns ≤ turn) :
    teachLoop max_turns regen genCalls turn q session events = session := by
  cases events with
  | nil => rfl
  | cons e rest => simp [teachLoop, Nat.not_lt.mpr h]

/-- If every evaluator reply carries a JSON *object* in its `evaluation`
field, the loop can never set `final_assessment` to `"mastered"`. -/
theorem teachLoop_not_mastered (max_turns : Nat) (regen : Nat → PyVal) :
    ∀ (events : List TeachEvent) (genCalls turn : Nat) (q : PyVal) (session : Session),
      session.final_assessment ≠ some "mastered" →
      (∀ e ∈ events, ∃ fs, e.evalResult.evaluation = PyVal.pdict fs) →
      (teachLoop max_turns regen genCalls turn q session events).final_assessment
        ≠ some "mastered"
  | [], _, _, _, _, hs, _ => hs
  | e :: rest, genCalls, turn, q, session, hs, hd => by
    obtain ⟨fs, hfs⟩ := hd e (List.mem_cons_self e rest)
    have hrest : ∀ e' ∈ rest, ∃ fs, e'.evalResult.evaluation = PyVal.pdict fs :=
      fun e' he' => hd e' (List.mem_cons_of_mem e he')
    by_cases hlt : turn < max_turns
    · by_cases hempty : pyStrip e.answer == ""
      · simpa [teachLoop, hlt, hempty] using
          teachLoop_not_mastered max_turns regen rest genCalls turn q session hs hrest
      · have hcorr : pyEqStr e.evalResult.evaluation "correct" = false := by
          rw [hfs]; rfl
        simp only [teachLoop, hlt, if_true, hempty, hcorr, Bool.false_and,
          Bool.false_eq_true, if_false]
        split <;> split
        all_goals
          first
          | exact teachLoop_not_mastered max_turns regen rest _ _ _ _
              (by decide) hrest
          | exact teachLoop_not_mastered max_turns regen rest _ _ _ _
              (by simpa using hs) hrest
    · simpa [teachLoop, hlt] using hs

/-- C1 (refuted by the code): under the evaluator's documented schema the
session can never end with `final_assessment = "mastered"`, even when an
evaluation reports `correctness = "correct"` and supplies no follow-up
question — the mastery test at line 445 compares the evaluation object with
the string `"correct"`. -/
theorem teach_topic_never_mastered (topic : String) (max_turns : Nat)
    (q0 : PyVal) (regen : Nat → PyVal) (events : List TeachEvent)
    (hschema : ∀ e ∈ events, ∃ fs, e.evalResult.evaluation = PyVal.pdict fs) :
    (teach_topic topic max_turns q0 regen events).final_assessment ≠ some "mastered" :=
  teachLoop_not_mastered max_turns regen events 0 0 q0 ⟨topic, [], none⟩
    (by simp) hschema

/-- Witness for C1, at the failing input: one turn of a five-turn session
whose evaluator reports `correctness = "correct"` with `next_question =
null`; the claim demands `"mastered"`, the code leaves the assessment
unset. -/
theorem teach_topic_never_mastered_witness :
    (teach_topic "self-supervision" 5 (.pstr "Q0") (fun _ => .pstr "Q1")
        [⟨"the model labels its own data",
          ⟨.pdict [("correctness", .pstr "correct")], .pstr "Excellent!",
            .pnull⟩⟩]).final_assessment = none
    ∧ (teach_topic "self-supervision" 5 (.pstr "Q0") (fun _ => .pstr "Q1")
        [⟨"the model labels its own data",
          ⟨.pdict [("correctness", .pstr "correct")], .pstr "Excellent!",
            .pnull⟩⟩]).final_assessment ≠ some "mastered" :=
  ⟨rfl,
    teach_topic_never_mastered "self-supervision" 5 (.pstr "Q0") (fun _ => .pstr "Q1")
      [⟨"the model labels its own data",
        ⟨.pdict [("correctness", .pstr "correct")], .pstr "Excellent!", .pnull⟩⟩]
      (fun e he => by
        rw [List.mem_singleton] at he
        exact ⟨[("correctness", .pstr "correct")], by rw [he]⟩)⟩

/-- C2 (counterexample to the stated spelling): the one-turn session with a
`partial` evaluation and a non-null follow-up ends with the literal
`"in progress"` (line 467 of the source), not `"in_progress"`. -/
theorem teach_topic_in_progress_spelling :
    (teach_topic "self-supervision" 1 (.pstr "Q0") (fun _ => .pstr "Q1")
        [⟨"a partial answer", ⟨.pdict [("correctness", .pstr "partial")],
          .pstr "fb", .pstr "What about X?"⟩⟩]).final_assessment
      = some "in progress"
    ∧ (teach_topic "self-supervision" 1 (.pstr "Q0") (fun _ => .pstr "Q1")
        [⟨"a partial answer", ⟨.pdict [("correctness", .pstr "partial")],
          .pstr "fb", .pstr "What about X?"⟩⟩]).final_assessment
      ≠ some "in_progress" := by
  constructor
  · rfl
  · decide

/-- With `max_turns = 1`, schema-conforming evaluator replies, and at least
one non-empty student answer, the loop ends at the first counted turn with
`final_assessment = "in progress"`. -/
theorem teachLoop_one_turn (regen : Nat → PyVal) :
    ∀ (events : List TeachEvent) (genCalls : Nat) (q : PyVal) (session : Session),
      (∀ e ∈ events, ∃ fs, e.evalResult.evaluation = PyVal.pdict fs) →
      (∃ e ∈ events, ¬ pyStrip e.answer = "") →
      (teachLoop 1 regen genCalls 0 q session events).final_assessment
        = some "in progress"
  | [], _, _, _, _, hans => by simp at hans
  | e :: rest, genCalls, q, session, hd, hans => by
    obtain ⟨fs, hfs⟩ := hd e (List.mem_cons_self e rest)
    by_cases hempty : pyStrip e.answer == ""
    · have hrest : ∃ e' ∈ rest, ¬ pyStrip e'.answer = "" := by
        obtain ⟨e', he', hne⟩ := hans
        rcases List.mem_cons.mp he' with rfl | hmem
        · exact absurd (by simpa using hempty) hne
        · exact ⟨e', hmem, hne⟩
      simpa [teachLoop, hempty] using
        teachLoop_one_turn regen rest genCalls q session
          (fun e' he' => hd e' (List.mem_cons_of_mem e he')) hrest
    · have hcorr : pyEqStr e.evalResult.evaluation "correct" = false := by
        rw [hfs]; rfl
      simp only [teachLoop, Nat.zero_lt_one, if_true, hempty, hcorr,
        Bool.false_and, Bool.false_eq_true, if_false, Nat.zero_add]
      split <;> split
      all_goals
        first
        | omega
        | rw [teachLoop_exit 1 regen _ 1 _ _ rest (Nat.le_refl 1)]

/-- C2 amended: with `max_turns = 1` and an evaluator that always returns a
schema-conforming evaluation object with `correctness = "partial"` and a
non-null (non-empty string) `next_question`, `teach_topic` terminates with
`final_assessment = "in progress"` (the source's literal, spelled with a
space) and never `"mastered"`. -/
theorem teach_topic_one_turn_in_progress (topic : String) (q0 : PyVal)
    (regen : Nat → PyVal) (events : List TeachEvent)
    (hpart : ∀ e ∈ events, ∃ fs, e.evalResult.evaluation = PyVal.pdict fs
      ∧ fs.lookup "correctness" = some (PyVal.pstr "partial"))
    (hnext : ∀ e ∈ events, ∃ nq, e.evalResult.next_question = PyVal.pstr nq ∧ nq ≠ "")
    (hans : ∃ e ∈ events, ¬ pyStrip e.answer = "") :
    (teach_topic topic 1 q0 regen events).final_assessment = some "in progress"
    ∧ (teach_topic topic 1 q0 regen events).final_assessment ≠ some "mastered" := by
  have h := teachLoop_one_turn regen events 0 q0 ⟨topic, [], none⟩
    (fun e he => ⟨(hpart e he).choose, (hpart e he).choose_spec.1⟩) hans
  exact ⟨h, by rw [teach_topic, h]; simp⟩

/-- Witness for C2's amended claim at the scenario input. -/
theorem teach_topic_one_turn_in_progress_witness :
    (teach_topic "tokens" 1 (.pstr "Q0") (fun _ => .pstr "Q1")
        [⟨"a partial answer", ⟨.pdict [("correctness", .pstr "partial")],
          .pstr "fb", .pstr "What about X?"⟩⟩]).final_assessment
      = some "in progress" :=
  (teach_topic_one_turn_in_progress "tokens" (.pstr "Q0") (fun _ => .pstr "Q1")
    [⟨"a partial answer", ⟨.pdict [("correctness", .pstr "partial")],
      .pstr "fb", .pstr "What about X?"⟩⟩]
    (fun e he => by
      rw [List.mem_singleton] at he
      exact ⟨[("correctness", .pstr "partial")], by rw [he], rfl⟩)
    (fun e he => by
      rw [List.mem_singleton] at he
      exact ⟨"What about X?", by rw [he], by decide⟩)
    ⟨_, List.mem_singleton_self _, by decide⟩).1

/-! ## C6 — concept progress is exclusive and idempotent -/

/-- Both concept lists of every stored topic record are duplicate-free. -/
def ProfileWF (p : ProfileData) : Prop :=
  ∀ t d, p.topics.lookup t = some d →
    d.concepts_learned.Nodup ∧ d.concepts_weak.Nodup

/-- `List.lookup` on a cons cell, in `if`-form. -/
theorem lookup_cons_ite (k t : String) (v : TopicData)
    (ts : List (String × TopicData)) :
    ((k, v) :: ts).lookup t = if t = k then some v else ts.lookup t := by
  rw [List.lookup_cons]
  by_cases h : t = k
  · simp [h]
  · rw [if_neg h, show (t == k) = false by simpa using h]

/-- Looking up an existing key after `setTopic` returns the new record. -/
theorem lookup_setTopic_self :
    ∀ (ts : List (String × TopicData)) (t : String) (d0 d : TopicData),
      ts.lookup t = some d0 → (setTopic ts t d).lookup t = some d
  | [], _, _, _, h => by simp at h
  | (k, v) :: ts, t, d0, d, h => by
    rw [lookup_cons_ite] at h
    by_cases hk : t = k
    · subst hk
      show List.lookup t ((if t = t then (t, d) else (t, v)) :: setTopic ts t d)
        = some d
      rw [if_pos rfl, lookup_cons_ite, if_pos rfl]
    · rw [if_neg hk] at h
      have hk' : ¬ k = t := fun h' => hk h'.symm
      show List.lookup t ((if k = t then (t, d) else (k, v)) :: setTopic ts t d)
        = some d
      rw [if_neg hk', lookup_cons_ite, if_neg hk]
      exact lookup_setTopic_self ts t d0 d h

/-- `setTopic` does not disturb other keys. -/
theorem lookup_setTopic_ne :
    ∀ (ts : List (String × TopicData)) (t t' : String) (d : TopicData),
      t' ≠ t → (setTopic ts t d).lookup t' = ts.lookup t'
  | [], _, _, _, _ => rfl
  | (k, v) :: ts, t, t', d, h => by
    by_cases hk : k = t
    · subst hk
      show List.lookup t' ((if k = k then (k, d) else (k, v)) :: setTopic ts k d)
        = List.lookup t' ((k, v) :: ts)
      rw [if_pos rfl, lookup_cons_ite, lookup_cons_ite, if_neg h, if_neg h]
      exact lookup_setTopic_ne ts k t' d h
    · show List.lookup t' ((if k = t then (t, d) else (k, v)) :: setTopic ts t d)
        = List.lookup t' ((k, v) :: ts)
      rw [if_neg hk, lookup_cons_ite, lookup_cons_ite]
      by_cases ht : t' = k
      · rw [if_pos ht, if_pos ht]
      · rw [if_neg ht, if_neg ht]
        exact lookup_setTopic_ne ts t t' d h

/-- Appending a binding for an absent key makes it found. -/
theorem lookup_append_self (ts : List (String × TopicData)) (t : String)
    (d : TopicData) (h : ts.lookup t = none) :
    (ts ++ [(t, d)]).lookup t = some d := by
  rw [List.lookup_append, h]
  simp

/-- Appending a binding for a different key does not disturb a lookup. -/
theorem lookup_append_ne (ts : List (String × TopicData)) (t t' : String)
    (d : TopicData) (h : t' ≠ t) :
    (ts ++ [(t, d)]).lookup t' = ts.lookup t' := by
  rw [List.lookup_append]
  have hnone : List.lookup t' [(t, d)] = none := by simp [h]
  rw [hnone]
  cases ts.lookup t' <;> rfl

/-- After `update_concept_progress`, the updated topic is present and holds
the updated record (built from the previous record, or from the fresh one
that `setdefault` inserts). -/
theorem update_lookup_self (p : ProfileData) (t c st now : String) :
    (update_concept_progress p t c st now).topics.lookup t
      = some (updateTopicData ((p.topics.lookup t).getD ⟨[], [], none⟩) c st now) := by
  unfold update_concept_progress
  cases h : p.topics.lookup t with
  | none => simpa [h] using lookup_append_self p.topics t _ h
  | some d => simpa [h] using lookup_setTopic_self p.topics t d _ h

/-- `update_concept_progress` does not disturb other topics. -/
theorem update_lookup_ne (p : ProfileData) (t t' c st now : String)
    (h : t' ≠ t) :
    (update_concept_progress p t c st now).topics.lookup t'
      = p.topics.lookup t' := by
  unfold update_concept_progress
  cases hl : p.topics.lookup t with
  | none => simpa [hl] using lookup_append_ne p.topics t t' _ h
  | some d => simpa [hl] using lookup_setTopic_ne p.topics t t' _ h

/-- The defensive removal keeps both lists duplicate-free. -/
theorem updateTopicData_nodup (d : TopicData) (c st now : String)
    (hL : d.concepts_learned.Nodup) (hW : d.concepts_weak.Nodup) :
    (updateTopicData d c st now).concepts_learned.Nodup
    ∧ (updateTopicData d c st now).concepts_weak.Nodup := by
  have hL' : (if c ∈ d.concepts_learned then d.concepts_learned.erase c
      else d.concepts_learned).Nodup := by
    by_cases h : c ∈ d.concepts_learned
    · rw [if_pos h]; exact hL.erase c
    · rw [if_neg h]; exact hL
  have hW' : (if c ∈ d.concepts_weak then d.concepts_weak.erase c
      else d.concepts_weak).Nodup := by
    by_cases h : c ∈ d.concepts_weak
    · rw [if_pos h]; exact hW.erase c
    · rw [if_neg h]; exact hW
  have hcL : c ∉ (if c ∈ d.concepts_learned then d.concepts_learned.erase c
      else d.concepts_learned) := by
    by_cases h : c ∈ d.concepts_learned
    · rw [if_pos h]; exact hL.not_mem_erase
    · rw [if_neg h]; exact h
  have hcW : c ∉ (if c ∈ d.concepts_weak then d.concepts_weak.erase c
      else d.concepts_weak) := by
    by_cases h : c ∈ d.concepts_weak
    · rw [if_pos h]; exact hW.not_mem_erase
    · rw [if_neg h]; exact h
  have hshape : updateTopicData d c st now =
      if st = "learned" then
        ⟨(if c ∈ d.concepts_learned then d.concepts_learned.erase c
            else d.concepts_learned) ++ [c],
          (if c ∈ d.concepts_weak then d.concepts_weak.erase c
            else d.concepts_weak), some now⟩
      else if st = "weak" then
        ⟨(if c ∈ d.concepts_learned then d.concepts_learned.erase c
            else d.concepts_learned),
          (if c ∈ d.concepts_weak then d.concepts_weak.erase c
            else d.concepts_weak) ++ [c], some now⟩
      else
        ⟨(if c ∈ d.concepts_learned then d.concepts_learned.erase c
            else d.concepts_learned),
          (if c ∈ d.concepts_weak then d.concepts_weak.erase c
            else d.concepts_weak), some now⟩ := rfl
  rw [hshape]
  by_cases h1 : st = "learned"
  · rw [if_pos h1]
    exact ⟨by simp [List.nodup_append, hL', hcL], hW'⟩
  · rw [if_neg h1]
    by_cases h2 : st = "weak"
    · rw [if_pos h2]
      exact ⟨hL', by simp [List.nodup_append, hW', hcW]⟩
    · rw [if_neg h2]
      exact ⟨hL', hW'⟩

/-- One `"learned"` update puts the concept in `concepts_learned` exactly
once and removes it from `concepts_weak`. -/
theorem updateTopicData_learned (d : TopicData) (c now : String)
    (hL : d.concepts_learned.Nodup) (hW : d.concepts_weak.Nodup) :
    (updateTopicData d c "learned" now).concepts_learned.count c = 1
    ∧ c ∉ (updateTopicData d c "learned" now).concepts_weak := by
  have hcL : c ∉ (if c ∈ d.concepts_learned then d.concepts_learned.erase c
      else d.concepts_learned) := by
    by_cases h : c ∈ d.concepts_learned
    · rw [if_pos h]; exact hL.not_mem_erase
    · rw [if_neg h]; exact h
  have hcW : c ∉ (if c ∈ d.concepts_weak then d.concepts_weak.erase c
      else d.concepts_weak) := by
    by_cases h : c ∈ d.concepts_weak
    · rw [if_pos h]; exact hW.not_mem_erase
    · rw [if_neg h]; exact h
  show ((if ("learned" : String) = "learned" then
      (⟨(if c ∈ d.concepts_learned then d.concepts_learned.erase c
          else d.concepts_learned) ++ [c],
        (if c ∈ d.concepts_weak then d.concepts_weak.erase c
          else d.concepts_weak), some now⟩ : TopicData)
    else if ("learned" : String) = "weak" then
      ⟨(if c ∈ d.concepts_learned then d.concepts_learned.erase c
          else d.concepts_learned),
        (if c ∈ d.concepts_weak then d.concepts_weak.erase c
          else d.concepts_weak) ++ [c], some now⟩
    else
      ⟨(if c ∈ d.concepts_learned then d.concepts_learned.erase c
          else d.concepts_learned),
        (if c ∈ d.concepts_weak then d.concepts_weak.erase c
          else d.concepts_weak), some now⟩).concepts_learned.count c = 1)
    ∧ c ∉ (updateTopicData d c "learned" now).concepts_weak
  rw [if_pos rfl]
  exact ⟨by simp [List.count_append, List.count_eq_zero.mpr hcL], hcW⟩

/-- One `"weak"` update puts the concept in `concepts_weak` exactly once
and removes it from `concepts_learned`. -/
theorem updateTopicData_weak (d : TopicData) (c now : String)
    (hL : d.concepts_learned.Nodup) (hW : d.concepts_weak.Nodup) :
    (updateTopicData d c "weak" now).concepts_weak.count c = 1
    ∧ c ∉ (updateTopicData d c "weak" now).concepts_learned := by
  have hcL : c ∉ (if c ∈ d.concepts_learned then d.concepts_learned.erase c
      else d.concepts_learned) := by
    by_cases h : c ∈ d.concepts_learned
    · rw [if_pos h]; exact hL.not_mem_erase
    · rw [if_neg h]; exact h
  have hcW : c ∉ (if c ∈ d.concepts_weak then d.concepts_weak.erase c
      else d.concepts_weak) := by
    by_cases h : c ∈ d.concepts_weak
    · rw [if_pos h]; exact hW.not_mem_erase
    · rw [if_neg h]; exact h
  show ((if ("weak" : String) = "learned" then
      (⟨(if c ∈ d.concepts_learned then d.concepts_learned.erase c
          else d.concepts_learned) ++ [c],
        (if c ∈ d.concepts_weak then d.concepts_weak.erase c
          else d.concepts_weak), some now⟩ : TopicData)
    else if ("weak" : String) = "weak" then
      ⟨(if c ∈ d.concepts_learned then d.concepts_learned.erase c
          else d.concepts_learned),
        (if c ∈ d.concepts_weak then d.concepts_weak.erase c
          else d.concepts_weak) ++ [c], some now⟩
    else
      ⟨(if c ∈ d.concepts_learned then d.concepts_learned.erase c
          else d.concepts_learned),
        (if c ∈ d.concepts_weak then d.concepts_weak.erase c
          else d.concepts_weak), some now⟩).concepts_weak.count c = 1)
    ∧ c ∉ (updateTopicData d c "weak" now).concepts_learned
  rw [if_neg (by decide), if_pos rfl]
  exact ⟨by simp [List.count_append, List.count_eq_zero.mpr hcW], hcL⟩

/-- Updating a *different* concept of the same topic leaves the counts of
`c` in both lists unchanged. -/
theorem updateTopicData_other (d : TopicData) (c c' st now : String)
    (hne : c ≠ c') :
    (updateTopicData d c' st now).concepts_learned.count c
        = d.concepts_learned.count c
    ∧ (updateTopicData d c' st now).concepts_weak.count c
        = d.concepts_weak.count c := by
  have hL : (if c' ∈ d.concepts_learned then d.concepts_learned.erase c'
      else d.concepts_learned).count c = d.concepts_learned.count c := by
    by_cases h : c' ∈ d.concepts_learned
    · rw [if_pos h]; exact List.count_erase_of_ne hne d.concepts_learned
    · rw [if_neg h]
  have hW : (if c' ∈ d.concepts_weak then d.concepts_weak.erase c'
      else d.concepts_weak).count c = d.concepts_weak.count c := by
    by_cases h : c' ∈ d.concepts_weak
    · rw [if_pos h]; exact List.count_erase_of_ne hne d.concepts_weak
    · rw [if_neg h]
  have hshape : updateTopicData d c' st now =
      if st = "learned" then
        ⟨(if c' ∈ d.concepts_learned then d.concepts_learned.erase c'
            else d.concepts_learned) ++ [c'],
          (if c' ∈ d.concepts_weak then d.concepts_weak.erase c'
            else d.concepts_weak), some now⟩
      else if st = "weak" then
        ⟨(if c' ∈ d.concepts_learned then d.concepts_learned.erase c'
            else d.concepts_learned),
          (if c' ∈ d.concepts_weak then d.concepts_weak.erase c'
            else d.concepts_weak) ++ [c'], some now⟩
      else
        ⟨(if c' ∈ d.concepts_learned then d.concepts_learned.erase c'
            else d.concepts_learned),
          (if c' ∈ d.concepts_weak then d.concepts_weak.erase c'
            else d.concepts_weak), some now⟩ := rfl
  rw [hshape]
  by_cases h1 : st = "learned"
  · rw [if_pos h1]
    refine ⟨?_, hW⟩
    show ((if c' ∈ d.concepts_learned then d.concepts_learned.erase c'
        else d.concepts_learned) ++ [c']).count c = d.concepts_learned.count c
    rw [List.count_append, hL, List.count_singleton]
    simp [Ne.symm hne]
  · rw [if_neg h1]
    by_cases h2 : st = "weak"
    · rw [if_pos h2]
      refine ⟨hL, ?_⟩
      show ((if c' ∈ d.concepts_weak then d.concepts_weak.erase c'
          else d.concepts_weak) ++ [c']).count c = d.concepts_weak.count c
      rw [List.count_append, hW, List.count_singleton]
      simp [Ne.symm hne]
    · rw [if_neg h2]
      exact ⟨hL, hW⟩

/-- `update_concept_progress` preserves the well-formedness invariant. -/
theorem update_WF (p : ProfileData) (t c st now : String) (hwf : ProfileWF p) :
    ProfileWF (update_concept_progress p t c st now) := by
  intro t' d' h'
  by_cases ht : t' = t
  · subst ht
    rw [update_lookup_self] at h'
    cases h'
    cases hd0 : p.topics.lookup t' with
    | none => simpa [hd0] using updateTopicData_nodup _ c st now (by simp) (by simp)
    | some d0 =>
        have := hwf t' d0 hd0
        simpa [hd0] using updateTopicData_nodup d0 c st now this.1 this.2
  · rw [update_lookup_ne p t t' c st now ht] at h'
    exact hwf t' d' h'

/-- `applyCalls` preserves well-formedness. -/
theorem applyCalls_WF :
    ∀ (calls : List UpdateCall) (p : ProfileData), ProfileWF p →
      ProfileWF (applyCalls p calls)
  | [], _, hwf => hwf
  | u :: calls, p, hwf =>
      applyCalls_WF calls _ (update_WF p u.topic u.concept u.status u.now hwf)

/-- Tracking lemma: starting from any well-formed profile, after a sequence
of `update_concept_progress` calls whose statuses are all `"learned"` or
`"weak"`, a concept that was updated at least once sits in exactly the list
of its **last** status — present exactly once there and absent from the
other list. -/
theorem applyCalls_track (t c : String) (calls : List UpdateCall) :
    ∀ (p : ProfileData), ProfileWF p →
      (∀ u ∈ calls, u.status = "learned" ∨ u.status = "weak") →
      ∀ s, lastStatus calls t c = some s →
      ∃ d, (applyCalls p calls).topics.lookup t = some d
        ∧ (s = "learned" → d.concepts_learned.count c = 1 ∧ c ∉ d.concepts_weak)
        ∧ (s = "weak" → d.concepts_weak.count c = 1 ∧ c ∉ d.concepts_learned) := by
  induction calls using List.reverseRecOn with
  | nil =>
    intro p hwf hstat s hlast
    simp [lastStatus] at hlast
  | append_singleton l u ih =>
    intro p hwf hstat s hlast
    have happ : applyCalls p (l ++ [u])
        = update_concept_progress (applyCalls p l) u.topic u.concept u.status u.now := by
      simp [applyCalls, List.foldl_append]
    by_cases hmatch : u.topic = t ∧ u.concept = c
    · obtain ⟨ht, hc⟩ := hmatch
      have hfilter : (l ++ [u]).filter
          (fun u' => decide (u'.topic = t ∧ u'.concept = c))
          = l.filter (fun u' => decide (u'.topic = t ∧ u'.concept = c)) ++ [u] := by
        rw [List.filter_append]
        simp [ht, hc]
      have hs : s = u.status := by
        unfold lastStatus at hlast
        rw [hfilter, List.getLast?_concat] at hlast
        simpa using hlast.symm
      subst hs
      subst ht
      subst hc
      have hq : ProfileWF (applyCalls p l) := applyCalls_WF l p hwf
      rw [happ, update_lookup_self]
      have hnodup :
          (((applyCalls p l).topics.lookup u.topic).getD ⟨[], [], none⟩).concepts_learned.Nodup
          ∧ (((applyCalls p l).topics.lookup u.topic).getD ⟨[], [], none⟩).concepts_weak.Nodup := by
        cases hl : (applyCalls p l).topics.lookup u.topic with
        | none => simp
        | some d0 => simpa using hq u.topic d0 hl
      refine ⟨_, rfl, ?_, ?_⟩
      · intro hst
        rw [hst]
        exact updateTopicData_learned _ u.concept u.now hnodup.1 hnodup.2
      · intro hst
        rw [hst]
        exact updateTopicData_weak _ u.concept u.now hnodup.1 hnodup.2
    · have hlast' : lastStatus l t c = some s := by
        unfold lastStatus at hlast ⊢
        rw [List.filter_append,
          show [u].filter (fun u' => decide (u'.topic = t ∧ u'.concept = c)) = [] by
            simp [hmatch],
          List.append_nil] at hlast
        exact hlast
      obtain ⟨d, hd, hlearn, hweak⟩ :=
        ih p hwf (fun u' hu' => hstat u' (List.mem_append_left _ hu')) s hlast'
      rw [happ]
      by_cases htop : u.topic = t
      · have hcne : c ≠ u.concept := fun h => hmatch ⟨htop, h.symm⟩
        subst htop
        rw [update_lookup_self, hd]
        have hoth := updateTopicData_other d c u.concept u.status u.now hcne
        refine ⟨_, rfl, ?_, ?_⟩
        · intro hst
          obtain ⟨h1, h2⟩ := hlearn hst
          refine ⟨?_, ?_⟩
          · show (updateTopicData d u.concept u.status u.now).concepts_learned.count c = 1
            simpa [hoth.1] using h1
          · show c ∉ (updateTopicData d u.concept u.status u.now).concepts_weak
            rw [← List.count_eq_zero, hoth.2, List.count_eq_zero]
            exact h2
        · intro hst
          obtain ⟨h1, h2⟩ := hweak hst
          refine ⟨?_, ?_⟩
          · show (updateTopicData d u.concept u.status u.now).concepts_weak.count c = 1
            simpa [hoth.2] using h1
          · show c ∉ (updateTopicData d u.concept u.status u.now).concepts_learned
            rw [← List.count_eq_zero, hoth.1, List.count_eq_zero]
            exact h2
      · rw [update_lookup_ne _ _ _ _ _ _ (fun h => htop h.symm)]
        exact ⟨d, hd, hlearn, hweak⟩

/-- C6: on an initially empty profile, after any sequence of
`update_concept_progress` calls with statuses in `{"learned", "weak"}`,
every updated concept appears in exactly one of
`concepts_learned`/`concepts_weak` of its topic — namely the one selected
by its last update, exactly once, and not in the other.  In particular the
two calls of the scenario leave `"definition"` only in `concepts_weak`. -/
theorem update_concept_progress_exclusive (student_id created_at : String)
    (calls : List UpdateCall) (t c s : String)
    (hstat : ∀ u ∈ calls, u.status = "learned" ∨ u.status = "weak")
    (hlast : lastStatus calls t c = some s) :
    ∃ d, get_topic_progress (applyCalls (ProfileData.createNew student_id created_at) calls) t
        = some d
      ∧ (s = "learned" → d.concepts_learned.count c = 1 ∧ c ∉ d.concepts_weak)
      ∧ (s = "weak" → d.concepts_weak.count c = 1 ∧ c ∉ d.concepts_learned) :=
  applyCalls_track t c calls (ProfileData.createNew student_id created_at)
    (fun _ _ h => by simp [ProfileData.createNew] at h) hstat s hlast

/-- Witness for C6, at the spec's scenario: `("tokens", "definition")`
updated `"learned"` then `"weak"` on a fresh profile ends with
`"definition"` exactly once in `concepts_weak` and not in
`concepts_learned`. -/
theorem update_concept_progress_exclusive_witness :
    ∃ d, get_topic_progress
          (applyCalls (ProfileData.createNew "default" "2025-01-01T00:00:00")
            [⟨"tokens", "definition", "learned", "T1"⟩,
             ⟨"tokens", "definition", "weak", "T2"⟩]) "tokens"
        = some d
      ∧ (("weak" : String) = "learned" →
          d.concepts_learned.count "definition" = 1 ∧ "definition" ∉ d.concepts_weak)
      ∧ (("weak" : String) = "weak" →
          d.concepts_weak.count "definition" = 1 ∧ "definition" ∉ d.concepts_learned) :=
  update_concept_progress_exclusive "default" "2025-01-01T00:00:00"
    [⟨"tokens", "definition", "learned", "T1"⟩,
     ⟨"tokens", "definition", "weak", "T2"⟩] "tokens" "definition" "weak"
    (by decide) (by decide)

/-! ## C5 — the chunk-overlap invariant -/

/-- The spec's chunking invariant for character mode: every chunk after the
first begins with the trailing `overlap` characters of its predecessor. -/
def overlapChain (overlap : Nat) (chunks : List String) : Prop :=
  List.Chain' (fun a b => takeRightList a.data overlap <+: b.data) chunks

/-- The spec's chunking invariant for token mode, at the token-id level:
every chunk's token sequence after the first begins with the trailing
`overlap` token ids of its predecessor. -/
def overlapChainTok (overlap : Nat) (chunks : List (List Nat)) : Prop :=
  List.Chain' (fun a b => takeRightList a overlap <+: b) chunks

/-- Computable decision procedure for `overlapChain`. -/
def decOverlapChain (overlap : Nat) :
    (chunks : List String) → Decidable (overlapChain overlap chunks)
  | [] => isTrue List.chain'_nil
  | [a] => isTrue (List.chain'_singleton a)
  | a :: b :: rest =>
    haveI : Decidable (overlapChain overlap (b :: rest)) :=
      decOverlapChain overlap (b :: rest)
    decidable_of_iff
      (takeRightList a.data overlap <+: b.data ∧ overlapChain overlap (b :: rest))
      (by
        unfold overlapChain
        exact (@List.chain'_cons String
          (fun x y : String => takeRightList x.data overlap <+: y.data) a b rest).symm)

instance (overlap : Nat) (chunks : List String) :
    Decidable (overlapChain overlap chunks) :=
  decOverlapChain overlap chunks

/-- The trailing `ov` units of `a` are a prefix of anything that starts
with Python's `a[-ov:]` slice (the two differ only at `ov = 0`, where the
slice is all of `a` but the trailing units are none). -/
theorem takeRightList_prefix_slice (a : List α) (ov : Nat) (rest : List α) :
    takeRightList a ov <+: pySliceLast a ov ++ rest := by
  unfold pySliceLast
  by_cases h : ov = 0
  · subst h
    rw [if_pos rfl]
    unfold takeRightList
    rw [Nat.sub_zero, List.drop_length]
    exact List.nil_prefix
  · rw [if_neg h]
    exact List.prefix_append _ _

/-- Replacing the last element of a `Chain'`-list by one related to the
same predecessors preserves the chain. -/
theorem chain_concat_mono {R : α → α → Prop} {xs : List α} {a a' : α}
    (h : List.Chain' R (xs ++ [a])) (hmono : ∀ y, R y a → R y a') :
    List.Chain' R (xs ++ [a']) := by
  rw [List.chain'_append] at h ⊢
  refine ⟨h.1, List.chain'_singleton a', fun x hx y hy => ?_⟩
  rw [List.head?_cons, Option.mem_some_iff] at hy
  subst hy
  exact hmono x (h.2.2 x hx a rfl)

/-- Extending a `Chain'`-list by an element related to its last element. -/
theorem chain_concat_extend {R : α → α → Prop} {xs : List α} {a b : α}
    (h : List.Chain' R (xs ++ [a])) (hab : R a b) :
    List.Chain' R ((xs ++ [a]) ++ [b]) := by
  rw [List.chain'_append]
  refine ⟨h, List.chain'_singleton b, fun x hx y hy => ?_⟩
  rw [List.getLast?_concat, Option.mem_some_iff] at hx
  rw [List.head?_cons, Option.mem_some_iff] at hy
  subst hx
  subst hy
  exact hab

/-- A buffer extended with a newline and a further line is non-empty. -/
theorem append_nl_ne_empty (s line : String) : s ++ "\n" ++ line ≠ "" := by
  intro h
  have hd := congrArg String.data h
  rw [String.data_append, String.data_append] at hd
  simp at hd

/-- Invariant of the character-chunking loop: if the chunks flushed so far
followed by the live buffer form an overlap chain and the buffer is
non-empty, the final output is that chain with only its last element
whitespace-stripped. -/
theorem chunkCharsLoop_chain (chunk_size overlap : Nat) :
    ∀ (lines : List String) (current : String) (chunks : List String),
      current ≠ "" →
      List.Chain' (fun a b => takeRightList a.data overlap <+: b.data)
        (chunks ++ [current]) →
      ∃ mid buf, buf ≠ ""
        ∧ chunkCharsLoop chunk_size overlap lines current chunks
            = mid ++ [pyStrip buf]
        ∧ List.Chain' (fun a b => takeRightList a.data overlap <+: b.data)
            (mid ++ [buf])
  | [], current, chunks, hne, hchain => by
    refine ⟨chunks, current, hne, ?_, hchain⟩
    simp [chunkCharsLoop, hne]
  | line :: rest, current, chunks, hne, hchain => by
    by_cases hfit : pyLen current + pyLen line < chunk_size
    · have hchain' : List.Chain'
          (fun a b => takeRightList a.data overlap <+: b.data)
          (chunks ++ [current ++ "\n" ++ line]) := by
        refine chain_concat_mono hchain fun y hy => ?_
        rw [String.data_append, String.data_append, List.append_assoc]
        exact hy.trans (List.prefix_append _ _)
      obtain ⟨mid, buf, hb, hout, hch⟩ :=
        chunkCharsLoop_chain chunk_size overlap rest (current ++ "\n" ++ line)
          chunks (append_nl_ne_empty current line) hchain'
      exact ⟨mid, buf, hb, by simpa [chunkCharsLoop, hfit] using hout, hch⟩
    · have hrel : takeRightList current.data overlap <+:
          (pySliceLastStr current overlap ++ "\n" ++ line).data := by
        rw [String.data_append, String.data_append]
        have : (pySliceLastStr current overlap).data
            = pySliceLast current.data overlap := rfl
        rw [this, List.append_assoc]
        exact takeRightList_prefix_slice current.data overlap _
      have hchain' : List.Chain'
          (fun a b => takeRightList a.data overlap <+: b.data)
          ((chunks ++ [current]) ++ [pySliceLastStr current overlap ++ "\n" ++ line]) :=
        chain_concat_extend hchain hrel
      obtain ⟨mid, buf, hb, hout, hch⟩ :=
        chunkCharsLoop_chain chunk_size overlap rest
          (pySliceLastStr current overlap ++ "\n" ++ line) (chunks ++ [current])
          (append_nl_ne_empty _ line) hchain'
      exact ⟨mid, buf, hb, by simpa [chunkCharsLoop, hfit] using hout, hch⟩

/-- Invariant of the token-chunking loop: the flushed chunks plus the live
buffer always form a token-overlap chain, and the buffer is flushed
unchanged at the end. -/
theorem chunkTokensLoop_chain (chunk_size overlap : Nat) (enc : String → List Nat) :
    ∀ (lines : List String) (current : List Nat) (chunks : List (List Nat)),
      List.Chain' (fun a b => takeRightList a overlap <+: b)
        (chunks ++ [current]) →
      List.Chain' (fun a b => takeRightList a overlap <+: b)
        (chunkTokensLoop chunk_size overlap enc lines current chunks)
  | [], current, chunks, hchain => hchain
  | line :: rest, current, chunks, hchain => by
    by_cases hfit : current.length + (enc line).length < chunk_size
    · have hchain' : List.Chain' (fun a b => takeRightList a overlap <+: b)
          (chunks ++ [current ++ enc line]) :=
        chain_concat_mono hchain fun y hy => hy.trans (List.prefix_append _ _)
      simpa [chunkTokensLoop, hfit] using
        chunkTokensLoop_chain chunk_size overlap enc rest (current ++ enc line)
          chunks hchain'
    · have hchain' : List.Chain' (fun a b => takeRightList a overlap <+: b)
          ((chunks ++ [current]) ++ [pySliceLast current overlap ++ enc line]) :=
        chain_concat_extend hchain (takeRightList_prefix_slice current overlap _)
      simpa [chunkTokensLoop, hfit] using
        chunkTokensLoop_chain chunk_size overlap enc rest
          (pySliceLast current overlap ++ enc line) (chunks ++ [current]) hchain'

/-- C5 counterexample input: with `chunk_size = 6, overlap = 2`, the text
`"AAAA\nB\nCCCC"` chunks to `["\nAAAA", "AA\nB", "B\nCCCC"]`, and the final
chunk does **not** begin with the trailing two characters `"\nB"` of its
predecessor — the final buffer `"\nB\nCCCC"` was stripped before being
appended (line 106 of the source). -/
theorem chunk_overlap_counterexample :
    chunk_text_by_chars "AAAA\nB\nCCCC" 6 2
      = some ["\nAAAA", "AA\nB", "B\nCCCC"]
    ∧ ¬ overlapChain 2 ["\nAAAA", "AA\nB", "B\nCCCC"] := by
  constructor
  · decide
  · decide

/-- C5 amended: in token mode the invariant holds for every adjacent pair
of chunks at the token-id level (the final buffer is appended unstripped);
in character mode the chunk list is an overlap chain whose **last** element
has additionally been whitespace-stripped (so the invariant holds verbatim
for all pairs not involving the last chunk, and for the last chunk up to
the stripping of leading whitespace). -/
theorem chunk_overlap_amended (text : String) (chunk_size overlap : Nat)
    (enc : String → List Nat) :
    overlapChainTok overlap (chunk_text_by_tokens_ids text chunk_size overlap enc)
    ∧ ∀ l, chunk_text_by_chars text chunk_size overlap = some l →
        ∃ mid buf, buf ≠ "" ∧ l = mid ++ [pyStrip buf]
          ∧ overlapChain overlap (mid ++ [buf]) := by
  constructor
  · exact chunkTokensLoop_chain chunk_size overlap enc (tokenLines text) [] []
      (List.chain'_singleton [])
  · intro l hl
    unfold chunk_text_by_chars at hl
    cases hlines : strippedLines (charPreprocess text) with
    | nil =>
      rw [hlines] at hl
      simp [chunkCharsLoop] at hl
    | cons line rest =>
      rw [hlines] at hl
      by_cases hfit : pyLen "" + pyLen line < chunk_size
      · obtain ⟨mid, buf, hb, hout, hch⟩ :=
          chunkCharsLoop_chain chunk_size overlap rest ("" ++ "\n" ++ line) []
            (append_nl_ne_empty "" line) (List.chain'_singleton _)
        rw [show chunkCharsLoop chunk_size overlap (line :: rest) "" []
            = chunkCharsLoop chunk_size overlap rest ("" ++ "\n" ++ line) [] by
          simp [chunkCharsLoop, hfit], hout] at hl
        rw [if_neg (by simp)] at hl
        cases hl
        exact ⟨mid, buf, hb, rfl, hch⟩
      · have hchain0 : List.Chain'
            (fun a b => takeRightList a.data overlap <+: b.data)
            (([] : List String) ++
              [("" : String)] ++ [pySliceLastStr "" overlap ++ "\n" ++ line]) := by
          refine chain_concat_extend (List.chain'_singleton _) ?_
          show takeRightList ("" : String).data overlap <+:
            (pySliceLastStr "" overlap ++ "\n" ++ line).data
          rw [String.data_append, String.data_append]
          rw [show (pySliceLastStr "" overlap).data
              = pySliceLast ("" : String).data overlap from rfl, List.append_assoc]
          exact takeRightList_prefix_slice _ overlap _
        obtain ⟨mid, buf, hb, hout, hch⟩ :=
          chunkCharsLoop_chain chunk_size overlap rest
            (pySliceLastStr "" overlap ++ "\n" ++ line) [""]
            (append_nl_ne_empty _ line) (by simpa using hchain0)
        rw [show chunkCharsLoop chunk_size overlap (line :: rest) "" []
            = chunkCharsLoop chunk_size overlap rest
                (pySliceLastStr "" overlap ++ "\n" ++ line) [""] by
          simp [chunkCharsLoop, hfit], hout] at hl
        rw [if_neg (by simp)] at hl
        cases hl
        exact ⟨mid, buf, hb, rfl, hch⟩

/-- Witness for C5's amended claim at the counterexample input: the chain
holds with the last element taken *before* stripping. -/
theorem chunk_overlap_amended_witness :
    ∃ mid buf, buf ≠ ""
      ∧ ["\nAAAA", "AA\nB", "B\nCCCC"] = mid ++ [pyStrip buf]
      ∧ overlapChain 2 (mid ++ [buf]) :=
  (chunk_overlap_amended "AAAA\nB\nCCCC" 6 2 (fun _ => [])).2
    ["\nAAAA", "AA\nB", "B\nCCCC"] (by decide)

/-! ## C4 — top-k retrieval: count, order, and tie-break -/

/-- In a list whose first components are strictly increasing, two members
with ordered first components occur in that order as a sublist. -/
theorem pair_sublist_of_fst_lt :
    ∀ {l : List (Nat × ℚ)} {a b : Nat × ℚ},
      l.Pairwise (fun x y => x.1 < y.1) → a ∈ l → b ∈ l → a.1 < b.1 →
      List.Sublist [a, b] l
  | [], _, _, _, ha, _, _ => absurd ha (List.not_mem_nil _)
  | x :: t, a, b, hl, ha, hb, hab => by
    rw [List.pairwise_cons] at hl
    rcases List.mem_cons.mp ha with rfl | hat
    · rcases List.mem_cons.mp hb with rfl | hbt
      · exact absurd hab (lt_irrefl _)
      · exact (List.singleton_sublist.mpr hbt).cons₂ a
    · rcases List.mem_cons.mp hb with rfl | hbt
      · exact absurd (lt_trans (hl.1 a hat) hab) (lt_irrefl _)
      · exact (pair_sublist_of_fst_lt hl.2 hat hbt hab).cons x

/-- A two-element sublist yields two ordered positions holding its
elements. -/
theorem sublist_pair_indices {x y : α} :
    ∀ {L : List α}, List.Sublist [x, y] L →
      ∃ i j, ∃ (hi : i < L.length) (hj : j < L.length),
        i < j ∧ L[i] = x ∧ L[j] = y := by
  intro L
  induction L with
  | nil => intro h; cases h
  | cons c L ih =>
    intro h
    cases h with
    | cons _ h' =>
      obtain ⟨i, j, hi, hj, hij, hx, hy⟩ := ih h'
      exact ⟨i + 1, j + 1, by simpa using hi, by simpa using hj,
        by omega, by simpa using hx, by simpa using hy⟩
    | cons₂ _ h' =>
      have hy : y ∈ L := h'.subset (List.mem_singleton_self y)
      obtain ⟨j, hj, hyj⟩ := List.getElem_of_mem hy
      exact ⟨0, j + 1, by simp, by simpa using hj, by omega, rfl,
        by simpa using hyj⟩

/-- The enumerated similarity list has strictly increasing indices. -/
theorem enum_pairwise_fst_lt (l : List ℚ) :
    l.enum.Pairwise (fun a b => a.1 < b.1) := by
  have h : (l.enum.map Prod.fst).Pairwise (· < ·) := by
    rw [List.enum_map_fst]
    exact List.pairwise_lt_range _
  exact List.pairwise_map.mp h

/-- Stability of the embedded sort: sorting `(index, score)` pairs with
strictly increasing indices by score descending leaves equal-score runs in
ascending index order. -/
theorem mergeSort_desc_tiebreak (l : List (Nat × ℚ))
    (hl : l.Pairwise fun a b => a.1 < b.1) :
    (l.mergeSort fun a b => decide (b.2 ≤ a.2)).Pairwise
      fun a b => a.2 = b.2 → a.1 < b.1 := by
  have htrans : ∀ (a b c : Nat × ℚ),
      (fun a b : Nat × ℚ => decide (b.2 ≤ a.2)) a b →
      (fun a b : Nat × ℚ => decide (b.2 ≤ a.2)) b c →
      (fun a b : Nat × ℚ => decide (b.2 ≤ a.2)) a c := by
    intro a b c hab hbc
    simp only [decide_eq_true_eq] at *
    exact hbc.trans hab
  have htotal : ∀ (a b : Nat × ℚ),
      ((fun a b : Nat × ℚ => decide (b.2 ≤ a.2)) a b
        || (fun a b : Nat × ℚ => decide (b.2 ≤ a.2)) b a) := by
    intro a b
    rcases le_total b.2 a.2 with h | h <;> simp [h]
  have hndl : l.Nodup := hl.imp fun {a b} h heq => absurd (heq ▸ h) (lt_irrefl _)
  have hperm := List.mergeSort_perm l (fun a b => decide (b.2 ≤ a.2))
  have hnd : (l.mergeSort fun a b => decide (b.2 ≤ a.2)).Nodup :=
    hperm.nodup_iff.mpr hndl
  have hndfst : ((l.mergeSort fun a b => decide (b.2 ≤ a.2)).map Prod.fst).Nodup := by
    have : (l.map Prod.fst).Nodup :=
      (List.pairwise_map.mpr hl).imp fun {a b} h => Nat.ne_of_lt h
    exact (hperm.map Prod.fst).nodup_iff.mpr this
  rw [List.pairwise_iff_getElem]
  intro i j hi hj hij heq
  by_contra hnot
  have hne : (l.mergeSort fun a b => decide (b.2 ≤ a.2))[i].1
      ≠ (l.mergeSort fun a b => decide (b.2 ≤ a.2))[j].1 := by
    intro hfst
    have hi2 : i < ((l.mergeSort fun a b => decide (b.2 ≤ a.2)).map Prod.fst).length := by
      simpa using hi
    have hj2 : j < ((l.mergeSort fun a b => decide (b.2 ≤ a.2)).map Prod.fst).length := by
      simpa using hj
    have hmap : ((l.mergeSort fun a b => decide (b.2 ≤ a.2)).map Prod.fst)[i]
        = ((l.mergeSort fun a b => decide (b.2 ≤ a.2)).map Prod.fst)[j] := by
      simpa using hfst
    have := hndfst.getElem_inj_iff.mp hmap
    omega
  have hlt : (l.mergeSort fun a b => decide (b.2 ≤ a.2))[j].1
      < (l.mergeSort fun a b => decide (b.2 ≤ a.2))[i].1 := by omega
  have hsub : List.Sublist [(l.mergeSort fun a b => decide (b.2 ≤ a.2))[j],
      (l.mergeSort fun a b => decide (b.2 ≤ a.2))[i]] l :=
    pair_sublist_of_fst_lt hl
      (List.mem_mergeSort.mp (List.getElem_mem hj))
      (List.mem_mergeSort.mp (List.getElem_mem hi)) hlt
  have hle : (fun a b : Nat × ℚ => decide (b.2 ≤ a.2))
      (l.mergeSort fun a b => decide (b.2 ≤ a.2))[j]
      (l.mergeSort fun a b => decide (b.2 ≤ a.2))[i] := by
    simp only [decide_eq_true_eq]
    exact le_of_eq heq
  have hout := List.pair_sublist_mergeSort htrans htotal hle hsub
  obtain ⟨k, m, hk, hm, hkm, hkx, hmy⟩ := sublist_pair_indices hout
  have hkj : k = j := hnd.getElem_inj_iff.mp hkx
  have hmi : m = i := hnd.getElem_inj_iff.mp hmy
  omega

/-- C4: with a stored record of equal-length chunk and embedding lists,
`retrieve_relevant_chunks` returns the ranked results; the result count is
`min top_k len(chunks)` (so exactly `top_k` when `top_k ≤ len(chunks)`, and
all chunks when `top_k` exceeds it); the ranked `(chunk id, similarity)`
pairs are sorted by non-increasing similarity with equal-similarity ties in
ascending chunk-id order; and when `top_k` covers every chunk the ranking
is a permutation of all scored chunks. -/
theorem retrieve_topk_ranking (st : StoreState) (query pdf_name : String)
    (embed : String → List ℚ) (simf : List ℚ → List ℚ → ℚ) (top_k : Nat)
    (chunks : List String) (embeddings : List (List ℚ))
    (hload : VectorStore.load st pdf_name = some (chunks, embeddings))
    (hlen : chunks.length = embeddings.length) :
    retrieve_relevant_chunks st query pdf_name embed simf top_k
      = .ok (collectResults chunks
          (rankedSimilarities embeddings (embed query) simf top_k))
    ∧ (collectResults chunks
        (rankedSimilarities embeddings (embed query) simf top_k)).length
        = min top_k chunks.length
    ∧ (rankedSimilarities embeddings (embed query) simf top_k).Pairwise
        (fun a b => b.2 ≤ a.2 ∧ (a.2 = b.2 → a.1 < b.1))
    ∧ (collectResults chunks
        (rankedSimilarities embeddings (embed query) simf top_k)).Pairwise
        (fun x y => y.2 ≤ x.2)
    ∧ (chunks.length ≤ top_k →
        List.Perm (rankedSimilarities embeddings (embed query) simf top_k)
          ((embeddings.map fun e => simf (embed query) e).enum)) := by
  have htrans : ∀ (a b c : Nat × ℚ),
      (fun a b : Nat × ℚ => decide (b.2 ≤ a.2)) a b →
      (fun a b : Nat × ℚ => decide (b.2 ≤ a.2)) b c →
      (fun a b : Nat × ℚ => decide (b.2 ≤ a.2)) a c := by
    intro a b c hab hbc
    simp only [decide_eq_true_eq] at *
    exact hbc.trans hab
  have htotal : ∀ (a b : Nat × ℚ),
      ((fun a b : Nat × ℚ => decide (b.2 ≤ a.2)) a b
        || (fun a b : Nat × ℚ => decide (b.2 ≤ a.2)) b a) := by
    intro a b
    rcases le_total b.2 a.2 with h | h <;> simp [h]
  have hsorted := @List.sorted_mergeSort (Nat × ℚ)
    (fun a b : Nat × ℚ => decide (b.2 ≤ a.2))
    htrans htotal ((embeddings.map fun e => simf (embed query) e).enum)
  have htie := mergeSort_desc_tiebreak
    ((embeddings.map fun e => simf (embed query) e).enum)
    (enum_pairwise_fst_lt _)
  have hpair : (rankedSimilarities embeddings (embed query) simf top_k).Pairwise
      (fun a b => b.2 ≤ a.2 ∧ (a.2 = b.2 → a.1 < b.1)) := by
    have hcomb := (hsorted.imp fun {a b} h => of_decide_eq_true h).and htie
    exact hcomb.sublist (List.take_sublist _ _)
  refine ⟨by simp [retrieve_relevant_chunks, hload], ?_, hpair, ?_, ?_⟩
  · simp only [collectResults, List.length_map, rankedSimilarities,
      List.length_take, List.length_mergeSort, List.enum_length,
      List.length_map]
    omega
  · exact List.pairwise_map.mpr (hpair.imp fun {a b} h => h.1)
  · intro htop
    have hlen2 : ((embeddings.map fun e => simf (embed query) e).enum.mergeSort
        fun a b => decide (b.2 ≤ a.2)).length ≤ top_k := by
      simpa using hlen ▸ htop
    unfold rankedSimilarities
    rw [List.take_of_length_le hlen2]
    exact List.mergeSort_perm _ _

/-- Witness for C4: three chunks with tied similarity `0`, `top_k = 2` —
two results, tie broken by ascending chunk id. -/
theorem retrieve_topk_ranking_witness :
    retrieve_relevant_chunks
        (VectorStore.save StoreState.empty "chip_huyen_ch_1" ["a", "b", "c"]
          [[1], [2], [3]] "T")
        "q" "chip_huyen_ch_1" (fun _ => [1]) (fun _ _ => 0) 2
      = .ok (collectResults ["a", "b", "c"]
          (rankedSimilarities [[1], [2], [3]] [1] (fun _ _ => 0) 2))
    ∧ (collectResults ["a", "b", "c"]
        (rankedSimilarities [[1], [2], [3]] [1] (fun _ _ => 0) 2)).length
      = min 2 3
    ∧ (rankedSimilarities [[1], [2], [3]] [1] (fun _ _ => 0) 2).Pairwise
        (fun a b => b.2 ≤ a.2 ∧ (a.2 = b.2 → a.1 < b.1)) :=
  have h := retrieve_topk_ranking
    (VectorStore.save StoreState.empty "chip_huyen_ch_1" ["a", "b", "c"]
      [[1], [2], [3]] "T")
    "q" "chip_huyen_ch_1" (fun _ => [1]) (fun _ _ => 0) 2 ["a", "b", "c"]
    [[1], [2], [3]]
    (by rw [load_save]; rfl) (by decide)
  ⟨h.1, h.2.1, h.2.2.1⟩

end SocraticTutor
